import Mathlib

/-!
# Verification of the Claude Punk backend core (`src/backend/server.js`)

Shallow embedding of the session/terminal orchestration layer:
`RingBuffer`, `RawReplayBuffer`, `LineBuffer` (including its ANSI filter),
`SessionManager` (create/kill/getSession/list), the `file.read` path
traversal check, and the WebSocket error-code mapping.

JS strings are modelled as `List Char` where per-character scanning matters
(the LineBuffer pipeline) and as `String` elsewhere.  JS `Array` cells are
modelled as `Nat → Option α` (unwritten cells are `undefined`).
-/

namespace ClaudePunk

/-! ## Section 2: RingBuffer (server.js lines 165–188)

```js
write(item) {
  this.buffer[this.head] = item;
  this.head = (this.head + 1) % this.capacity;
  if (this.size < this.capacity) this.size++;
}
readAll() {
  if (this.size === 0) return [];
  const result = new Array(this.size);
  const start = (this.head - this.size + this.capacity) % this.capacity;
  for (let i = 0; i < this.size; i++)
    result[i] = this.buffer[(start + i) % this.capacity];
  return result;
}
```
-/

structure RingBuffer (α : Type) where
  capacity : Nat
  buffer : Nat → Option α
  head : Nat
  size : Nat

def RingBuffer.new (α : Type) (capacity : Nat) : RingBuffer α :=
  { capacity := capacity, buffer := fun _ => none, head := 0, size := 0 }

def RingBuffer.write (rb : RingBuffer α) (item : α) : RingBuffer α :=
  { rb with
    buffer := fun i => if i = rb.head then some item else rb.buffer i
    head := (rb.head + 1) % rb.capacity
    size := if rb.size < rb.capacity then rb.size + 1 else rb.size }

/-- The `(head - size + capacity) % capacity`; since `size ≤ capacity` the JS
(possibly negative before the `+ capacity`) value equals
`head + capacity - size` in `Nat`. -/
def RingBuffer.readAll (rb : RingBuffer α) : List (Option α) :=
  if rb.size = 0 then []
  else
    let start := (rb.head + rb.capacity - rb.size) % rb.capacity
    (List.range rb.size).map (fun i => rb.buffer ((start + i) % rb.capacity))

/-- A sequence of `write` calls, oldest first. -/
def RingBuffer.writeAll (rb : RingBuffer α) (items : List α) : RingBuffer α :=
  items.foldl RingBuffer.write rb

/-- Invariant carried through a write sequence of length `n` into an
initially-empty ring of positive capacity: the head is `n % capacity`,
the size is `min n capacity`, and cell `j % capacity` holds the `j`-th
written item for every `j` in the retained window `[n - size, n)`. -/
theorem RingBuffer.writeAll_inv {α : Type} (cap : Nat) (hcap : 0 < cap)
    (ws : List α) :
    ((RingBuffer.new α cap).writeAll ws).capacity = cap ∧
    ((RingBuffer.new α cap).writeAll ws).head = ws.length % cap ∧
    ((RingBuffer.new α cap).writeAll ws).size = min ws.length cap ∧
    ∀ j, (hj : j < ws.length) → ws.length ≤ j + cap →
      ((RingBuffer.new α cap).writeAll ws).buffer (j % cap) = some ws[j] := by
  induction ws using List.reverseRecOn with
  | nil =>
    refine ⟨rfl, by simp [RingBuffer.writeAll, RingBuffer.new],
      by simp [RingBuffer.writeAll, RingBuffer.new], ?_⟩
    intro j hj
    simp at hj
  | append_singleton ws a ih =>
    obtain ⟨hc, hh, hs, hb⟩ := ih
    have hfold : (RingBuffer.new α cap).writeAll (ws ++ [a])
        = ((RingBuffer.new α cap).writeAll ws).write a := by
      simp [RingBuffer.writeAll]
    rw [hfold]
    refine ⟨by simp [RingBuffer.write, hc], ?_, ?_, ?_⟩
    · simp only [RingBuffer.write, hc, hh, List.length_append, List.length_singleton]
      exact Nat.mod_add_mod ws.length cap 1
    · simp only [RingBuffer.write, hc, hs, List.length_append, List.length_singleton]
      split <;> omega
    · intro j hj hwin
      simp only [List.length_append, List.length_singleton] at hj hwin
      simp only [RingBuffer.write]
      by_cases heq : j = ws.length
      · subst heq
        rw [if_pos (by rw [hh])]
        simp
      · have hlt : j < ws.length := by omega
        have hne : j % cap ≠ ((RingBuffer.new α cap).writeAll ws).head := by
          rw [hh]
          intro hmod
          have hdvd : cap ∣ ws.length - j :=
            (Nat.modEq_iff_dvd' (Nat.le_of_lt hlt)).mp hmod
          have := Nat.le_of_dvd (by omega) hdvd
          omega
        rw [if_neg hne, hb j hlt (by omega)]
        congr 1
        exact (List.getElem_append_left hlt).symm

/-- After any write sequence into an initially-empty ring of positive
capacity `cap`, `readAll` returns exactly the last `min n cap` written items,
oldest first (`ws.drop (n - cap)`). -/
theorem RingBuffer.readAll_writeAll {α : Type} (cap : Nat) (hcap : 0 < cap)
    (ws : List α) :
    ((RingBuffer.new α cap).writeAll ws).readAll
      = (ws.drop (ws.length - cap)).map some := by
  obtain ⟨hc, hh, hs, hb⟩ := RingBuffer.writeAll_inv cap hcap ws
  by_cases hzero : ((RingBuffer.new α cap).writeAll ws).size = 0
  · rw [RingBuffer.readAll, if_pos hzero]
    have hlen : ws.length = 0 := by rw [hs] at hzero; omega
    rw [List.eq_nil_of_length_eq_zero hlen]
    simp
  · rw [RingBuffer.readAll, if_neg hzero]
    apply List.ext_getElem
    · simp only [List.length_map, List.length_range, List.length_drop, hs]
      omega
    · intro i h1 h2
      simp only [List.length_map, List.length_range] at h1
      rw [hs] at h1
      simp only [List.getElem_map, List.getElem_range, List.getElem_drop]
      have hkey : ((((RingBuffer.new α cap).writeAll ws).head +
            ((RingBuffer.new α cap).writeAll ws).capacity -
            ((RingBuffer.new α cap).writeAll ws).size) %
            ((RingBuffer.new α cap).writeAll ws).capacity + i) %
            ((RingBuffer.new α cap).writeAll ws).capacity
          = (ws.length - cap + i) % cap := by
        rw [hc, hh, hs]
        rw [Nat.mod_add_mod]
        have e1 : ws.length % cap + cap - min ws.length cap + i
            = ws.length % cap + (cap - min ws.length cap + i) := by omega
        rw [e1, Nat.mod_add_mod]
        have e2 : ws.length + (cap - min ws.length cap + i)
            = (ws.length - cap + i) + cap := by omega
        rw [e2, Nat.add_mod_right]
      rw [hkey]
      have hj : ws.length - cap + i < ws.length := by omega
      rw [hb (ws.length - cap + i) hj (by omega)]

/-- The `size` field never exceeds `capacity` (for positive capacity, after
any write sequence into an initially-empty ring). -/
theorem RingBuffer.size_le_capacity {α : Type} (cap : Nat) (hcap : 0 < cap)
    (ws : List α) :
    ((RingBuffer.new α cap).writeAll ws).size ≤ cap := by
  obtain ⟨-, -, hs, -⟩ := RingBuffer.writeAll_inv cap hcap ws
  omega

/-- Claim **C2**: for every sequence of writes into a `RingBuffer` of positive
capacity `C`, `readAll()` returns exactly the last `C` written items in write
order when more than `C` items were written (`ws.drop (ws.length - C)` and
`readAll.length = C`), all written items oldest-first when at most `C` were
written (`drop 0 = ws`, length `ws.length`), and `size` never exceeds the
capacity. -/
theorem claim_C2_ringBuffer_lastC (α : Type) (cap : Nat) (hcap : 0 < cap)
    (ws : List α) :
    ((RingBuffer.new α cap).writeAll ws).readAll
        = (ws.drop (ws.length - cap)).map some ∧
    ((RingBuffer.new α cap).writeAll ws).readAll.length = min ws.length cap ∧
    ((RingBuffer.new α cap).writeAll ws).size ≤ cap := by
  refine ⟨RingBuffer.readAll_writeAll cap hcap ws, ?_,
    RingBuffer.size_le_capacity cap hcap ws⟩
  rw [RingBuffer.readAll_writeAll cap hcap ws]
  simp only [List.length_map, List.length_drop]
  omega

/-- Concrete witness for C2: capacity 2, three writes; `readAll` is the last
two items in write order, and `size = 2 ≤ 2`. -/
theorem claim_C2_ringBuffer_lastC_witness :
    0 < 2 ∧
    (((RingBuffer.new Nat 2).writeAll [10, 20, 30]).readAll
        = (([10, 20, 30] : List Nat).drop ([10, 20, 30].length - 2)).map some ∧
    ((RingBuffer.new Nat 2).writeAll [10, 20, 30]).readAll.length
        = min ([10, 20, 30] : List Nat).length 2 ∧
    ((RingBuffer.new Nat 2).writeAll [10, 20, 30]).size ≤ 2) :=
  ⟨by decide, claim_C2_ringBuffer_lastC Nat 2 (by decide) [10, 20, 30]⟩

/-! ## Section 2b: RawReplayBuffer (server.js lines 193–215)

```js
write(data) {
  const len = Buffer.byteLength(data, 'utf8');
  this.chunks.push(data);
  this.totalBytes += len;
  while (this.totalBytes > this.maxBytes && this.chunks.length > 1) {
    const removed = this.chunks.shift();
    this.totalBytes -= Buffer.byteLength(removed, 'utf8');
  }
}
read() { return this.chunks.join(''); }
```
The `while` eviction loop is embedded as the structurally recursive
`evictLoop`; the `totalBytes -=` subtraction is `Nat` subtraction, which
agrees with JS because `totalBytes` always equals the byte sum of `chunks`
(proved below). -/

structure RawReplayBuffer where
  maxBytes : Nat
  chunks : List String
  totalBytes : Nat

def RawReplayBuffer.new (maxBytes : Nat) : RawReplayBuffer :=
  { maxBytes := maxBytes, chunks := [], totalBytes := 0 }

/-- The eviction `while` loop: drop from the front while the running total
exceeds `maxBytes` and more than one chunk remains. -/
def evictLoop (maxBytes : Nat) : List String → Nat → List String × Nat
  | [], total => ([], total)
  | [c], total => ([c], total)
  | c :: c2 :: rest, total =>
    if maxBytes < total then evictLoop maxBytes (c2 :: rest) (total - c.utf8ByteSize)
    else (c :: c2 :: rest, total)

def RawReplayBuffer.write (b : RawReplayBuffer) (data : String) : RawReplayBuffer :=
  let pushed := b.chunks ++ [data]
  let total := b.totalBytes + data.utf8ByteSize
  let evicted := evictLoop b.maxBytes pushed total
  { b with chunks := evicted.1, totalBytes := evicted.2 }

def RawReplayBuffer.read (b : RawReplayBuffer) : String :=
  String.join b.chunks

def RawReplayBuffer.writeAll (b : RawReplayBuffer) (ws : List String) :
    RawReplayBuffer :=
  ws.foldl RawReplayBuffer.write b

/-- Total UTF-8 byte size of a chunk list. -/
def sumBytes (l : List String) : Nat := (l.map String.utf8ByteSize).sum

theorem evictLoop_total (maxBytes : Nat) :
    ∀ (l : List String) (t : Nat), t = sumBytes l →
      (evictLoop maxBytes l t).2 = sumBytes (evictLoop maxBytes l t).1 := by
  intro l
  induction l with
  | nil => intro t ht; simpa [evictLoop] using ht
  | cons c rest ih =>
    intro t ht
    cases rest with
    | nil => simpa [evictLoop] using ht
    | cons c2 rest2 =>
      rw [evictLoop]
      split
      · exact ih _ (by simp [sumBytes] at ht ⊢; omega)
      · exact ht

theorem evictLoop_stop (maxBytes : Nat) :
    ∀ (l : List String) (t : Nat),
      (evictLoop maxBytes l t).2 ≤ maxBytes ∨
      (evictLoop maxBytes l t).1.length ≤ 1 := by
  intro l
  induction l with
  | nil => intro t; right; simp [evictLoop]
  | cons c rest ih =>
    intro t
    cases rest with
    | nil => right; simp [evictLoop]
    | cons c2 rest2 =>
      rw [evictLoop]
      split
      · exact ih _
      · left; omega

theorem evictLoop_suffix (maxBytes : Nat) :
    ∀ (l : List String) (t : Nat),
      ∃ k, k ≤ l.length ∧ (evictLoop maxBytes l t).1 = l.drop k := by
  intro l
  induction l with
  | nil => intro t; exact ⟨0, by simp [evictLoop]⟩
  | cons c rest ih =>
    intro t
    cases rest with
    | nil => exact ⟨0, by simp [evictLoop]⟩
    | cons c2 rest2 =>
      rw [evictLoop]
      split
      · obtain ⟨k, hk, he⟩ := ih (t - c.utf8ByteSize)
        exact ⟨k + 1, by simpa using hk, by simpa using he⟩
      · exact ⟨0, by simp⟩

/-- Invariant through any write sequence from an empty `RawReplayBuffer`:
the running total equals the byte sum of the retained chunks, and the
retained chunks are a suffix of the written chunks. -/
theorem RawReplayBuffer.rawWriteAll_inv (maxBytes : Nat) (ws : List String) :
    ((RawReplayBuffer.new maxBytes).writeAll ws).maxBytes = maxBytes ∧
    ((RawReplayBuffer.new maxBytes).writeAll ws).totalBytes
      = sumBytes ((RawReplayBuffer.new maxBytes).writeAll ws).chunks ∧
    ∃ k, k ≤ ws.length ∧
      ((RawReplayBuffer.new maxBytes).writeAll ws).chunks = ws.drop k := by
  induction ws using List.reverseRecOn with
  | nil =>
    exact ⟨rfl, by simp [RawReplayBuffer.writeAll, RawReplayBuffer.new, sumBytes],
      ⟨0, by simp [RawReplayBuffer.writeAll, RawReplayBuffer.new]⟩⟩
  | append_singleton ws a ih =>
    obtain ⟨hm, ht, k, hk, hchunks⟩ := ih
    have hfold : (RawReplayBuffer.new maxBytes).writeAll (ws ++ [a])
        = ((RawReplayBuffer.new maxBytes).writeAll ws).write a := by
      simp [RawReplayBuffer.writeAll]
    rw [hfold]
    refine ⟨hm, ?_, ?_⟩
    · apply evictLoop_total
      rw [ht, hchunks]
      simp [sumBytes]
    · obtain ⟨k2, hk2, he⟩ := evictLoop_suffix
        ((RawReplayBuffer.new maxBytes).writeAll ws).maxBytes
        (((RawReplayBuffer.new maxBytes).writeAll ws).chunks ++ [a])
        (((RawReplayBuffer.new maxBytes).writeAll ws).totalBytes + a.utf8ByteSize)
      refine ⟨k + k2, ?_, ?_⟩
      · rw [hchunks] at hk2
        simp at hk2
        simp
        omega
      · show (evictLoop _ _ _).1 = _
        rw [he, hchunks, ← List.drop_append_of_le_length hk, List.drop_drop]

/-- Claim **C3**: after every write sequence, the retained byte total is at most
`maxBytes` unless exactly one chunk is retained and that chunk alone exceeds
`maxBytes`; the retained chunks are a suffix of the written chunks and
`read()` returns their concatenation in write order. -/
theorem claim_C3_rawReplayBuffer_cap (maxBytes : Nat) (ws : List String) :
    (((RawReplayBuffer.new maxBytes).writeAll ws).totalBytes ≤ maxBytes ∨
      ∃ c, ((RawReplayBuffer.new maxBytes).writeAll ws).chunks = [c] ∧
        maxBytes < c.utf8ByteSize) ∧
    ∃ k, k ≤ ws.length ∧
      ((RawReplayBuffer.new maxBytes).writeAll ws).chunks = ws.drop k ∧
      ((RawReplayBuffer.new maxBytes).writeAll ws).read
        = String.join (ws.drop k) := by
  obtain ⟨hm, ht, k, hk, hchunks⟩ := RawReplayBuffer.rawWriteAll_inv maxBytes ws
  constructor
  · by_cases hle :
      ((RawReplayBuffer.new maxBytes).writeAll ws).totalBytes ≤ maxBytes
    · exact Or.inl hle
    · right
      have hstop : ((RawReplayBuffer.new maxBytes).writeAll ws).totalBytes ≤ maxBytes ∨
          ((RawReplayBuffer.new maxBytes).writeAll ws).chunks.length ≤ 1 := by
        cases ws using List.reverseRecOn with
        | nil => left; simp [RawReplayBuffer.writeAll, RawReplayBuffer.new]
        | append_singleton ws0 a =>
          have hfold : (RawReplayBuffer.new maxBytes).writeAll (ws0 ++ [a])
              = ((RawReplayBuffer.new maxBytes).writeAll ws0).write a := by
            simp [RawReplayBuffer.writeAll]
          obtain ⟨hm0, -, -⟩ := RawReplayBuffer.rawWriteAll_inv maxBytes ws0
          rw [hfold]
          simp only [RawReplayBuffer.write, hm0]
          exact evictLoop_stop maxBytes _ _
      rcases hstop with h | h
      · exact absurd h hle
      · match hc : ((RawReplayBuffer.new maxBytes).writeAll ws).chunks with
        | [] =>
          exfalso
          apply hle
          rw [ht, hc]
          simp [sumBytes]
        | [c] =>
          refine ⟨c, rfl, ?_⟩
          rw [ht, hc] at hle
          simp [sumBytes] at hle
          omega
        | c :: c2 :: rest => rw [hc] at h; simp at h
  · exact ⟨k, hk, hchunks, by rw [RawReplayBuffer.read, hchunks]⟩

/-! ## Section 4: SessionManager (server.js lines 338–582)

Sessions are kept in a registry (`this.sessions`, a JS `Map` with unique
ids, modelled as a list in insertion order).  `crypto.randomUUID()` is
modelled as a fresh-id counter.  The pty spawn facility is modelled by a
boolean input `spawnOk` (does `pty.spawn` succeed?) plus a `spawned`
counter that counts successfully spawned processes. -/

inductive SessState
  | active
  | terminated
deriving DecidableEq, Repr

structure Sess where
  id : Nat
  state : SessState
  workDir : String
  label : String
  agentType : String
  exitCode : Option Int
  cols : Nat
  rows : Nat
  forceKillTimer : Bool
deriving DecidableEq, Repr

structure SMConfig where
  maxSessions : Nat
  agentCommands : List String
deriving DecidableEq, Repr

/-- The `CONFIG.maxSessions = 16`; `CONFIG.agentCommands` has keys
`claude` and `codex`. -/
def defaultConfig : SMConfig :=
  { maxSessions := 16, agentCommands := ["claude", "codex"] }

/-- The filesystem facts `create` consults (`fs.existsSync`,
`fs.statSync(..).isDirectory()`). -/
structure FSModel where
  existsSync : String → Bool
  isDirectory : String → Bool

structure SMState where
  sessions : List Sess
  nextId : Nat
  spawned : Nat
deriving DecidableEq, Repr

def SMState.empty : SMState := { sessions := [], nextId := 0, spawned := 0 }

inductive CreateErr
  | workDirRequired
  | workDirNotFound (wd : String)
  | workDirNotDirectory (wd : String)
  | maxSessionsReached
  | unknownAgentType (a : String)
  | spawnFailed
deriving DecidableEq, Repr

/-- The `path.basename` for POSIX paths without trailing slash. -/
def basename (p : String) : String := (p.splitOn "/").getLastD ""

def ptyDefaultCols : Nat := 120
def ptyDefaultRows : Nat := 40

/-- The `SessionManager.create(workDir, label, agentType)` (lines 344–462):
validations in source order (required, exists, is-directory, quota,
agent type), then the pty spawn, then registry insertion.  Every failure
returns the state unchanged; only a successful spawn increments `spawned`
and registers the session. -/
def newSession (st : SMState) (workDir label agentType : String) : Sess :=
  { id := st.nextId
    state := .active
    workDir := workDir
    label := if label = "" then basename workDir else label
    agentType := agentType
    exitCode := none
    cols := ptyDefaultCols
    rows := ptyDefaultRows
    forceKillTimer := false }

def SessionManager.create (cfg : SMConfig) (fsm : FSModel) (spawnOk : Bool)
    (st : SMState) (workDir label agentType : String) :
    Except CreateErr Sess × SMState :=
  if workDir = "" then (.error .workDirRequired, st)
  else if fsm.existsSync workDir = false then (.error (.workDirNotFound workDir), st)
  else if fsm.isDirectory workDir = false then
    (.error (.workDirNotDirectory workDir), st)
  else if cfg.maxSessions ≤ st.sessions.length then (.error .maxSessionsReached, st)
  else if cfg.agentCommands.contains agentType = false then
    (.error (.unknownAgentType agentType), st)
  else if spawnOk = false then (.error .spawnFailed, st)
  else
    let s := newSession st workDir label agentType
    (.ok s,
      { sessions := st.sessions ++ [s]
        nextId := st.nextId + 1
        spawned := st.spawned + 1 })

/-- Observable side effects of `kill` (the termination event
`session-exit` is emitted only by the `onExit` handler, never by `kill`
itself, so a `kill` that is a no-op produces the empty effect list). -/
inductive KillEffect
  | gracefulKill (id : Nat)
  | armForceKillTimer (id : Nat)
  | terminationEvent (id : Nat)
deriving DecidableEq, Repr

/-- The `this.sessions.get(id)` -/
def findSession (st : SMState) (id : Nat) : Option Sess :=
  st.sessions.find? (fun s => s.id == id)

/-- The `SessionManager.kill(id)` (lines 481–517): returns immediately for an
unknown or already-terminated id; otherwise marks the session terminated,
attempts a graceful kill and arms the forced-kill timer. -/
def SessionManager.kill (st : SMState) (id : Nat) : SMState × List KillEffect :=
  match findSession st id with
  | none => (st, [])
  | some s =>
    if s.state = .terminated then (st, [])
    else
      ({ st with
          sessions := st.sessions.map (fun t =>
            if t.id = id then { t with state := .terminated, forceKillTimer := true }
            else t) },
        [.gracefulKill id, .armForceKillTimer id])

inductive SessionErr
  | notFound
  | terminated
deriving DecidableEq, Repr

/-- The `SessionManager.getSession(id)` (lines 519–524): throws
`SESSION_NOT_FOUND` / `SESSION_TERMINATED`. -/
def SessionManager.getSession (st : SMState) (id : Nat) : Except SessionErr Sess :=
  match findSession st id with
  | none => .error .notFound
  | some s => if s.state = .terminated then .error .terminated else .ok s

/-- The `sendPrompt` appends a newline to the prompt and writes it (line 464). -/
def SessionManager.sendPrompt (st : SMState) (id : Nat) (prompt : String) :
    Except SessionErr String :=
  (SessionManager.getSession st id).map (fun _ => prompt ++ "\n")

/-- The `writeRaw` forwards the bytes verbatim (line 469). -/
def SessionManager.writeRaw (st : SMState) (id : Nat) (data : String) :
    Except SessionErr String :=
  (SessionManager.getSession st id).map (fun _ => data)

/-- The `resize` forwards to the pty and caches cols/rows (line 474). -/
def SessionManager.resize (st : SMState) (id : Nat) (cols rows : Nat) :
    Except SessionErr SMState :=
  (SessionManager.getSession st id).map (fun _ =>
    { st with
        sessions := st.sessions.map (fun t =>
          if t.id = id then { t with cols := cols, rows := rows } else t) })

structure PublicSession where
  id : Nat
  state : SessState
  workDir : String
  label : String
  agentType : String
deriving DecidableEq, Repr

def Sess.toPublic (s : Sess) : PublicSession :=
  { id := s.id, state := s.state, workDir := s.workDir, label := s.label,
    agentType := s.agentType }

/-- The `SessionManager.list()` (lines 538–542): active sessions only. -/
def SessionManager.list (st : SMState) : List PublicSession :=
  (st.sessions.filter (fun s => !(s.state == .terminated))).map Sess.toPublic

/-- Call `create` `n` times in a row with the same arguments, collecting
the per-call results in call order. -/
def SessionManager.createTimes (cfg : SMConfig) (fsm : FSModel) (spawnOk : Bool)
    (workDir label agentType : String) :
    Nat → SMState → SMState × List (Except CreateErr Sess)
  | 0, st => (st, [])
  | n + 1, st =>
    let r := SessionManager.create cfg fsm spawnOk st workDir label agentType
    let rest := SessionManager.createTimes cfg fsm spawnOk workDir label agentType n r.2
    (rest.1, r.1 :: rest.2)

theorem create_success (cfg : SMConfig) (fsm : FSModel) (st : SMState)
    (wd lbl ag : String)
    (hwd : wd ≠ "") (hex : fsm.existsSync wd = true)
    (hdir : fsm.isDirectory wd = true)
    (hq : st.sessions.length < cfg.maxSessions)
    (hag : cfg.agentCommands.contains ag = true) :
    SessionManager.create cfg fsm true st wd lbl ag
      = (.ok (newSession st wd lbl ag),
        { sessions := st.sessions ++ [newSession st wd lbl ag]
          nextId := st.nextId + 1
          spawned := st.spawned + 1 }) := by
  rw [SessionManager.create]
  rw [if_neg hwd, if_neg (by simp [hex]), if_neg (by simp [hdir]),
    if_neg (by omega), if_neg (by rw [hag]; simp), if_neg (by simp)]

/-- Running `create` until the quota is exactly filled and once more:
every call before the quota succeeds, the final call fails with the quota
error, and exactly `m` processes were spawned. -/
theorem createTimes_fill (cfg : SMConfig) (fsm : FSModel)
    (wd lbl ag : String)
    (hwd : wd ≠ "") (hex : fsm.existsSync wd = true)
    (hdir : fsm.isDirectory wd = true)
    (hag : cfg.agentCommands.contains ag = true) :
    ∀ (m : Nat) (st : SMState),
      st.sessions.length + m = cfg.maxSessions →
      ∃ oks,
        (SessionManager.createTimes cfg fsm true wd lbl ag (m + 1) st).2
          = oks ++ [.error .maxSessionsReached] ∧
        oks.length = m ∧ (∀ r ∈ oks, ∃ s, r = .ok s) ∧
        (SessionManager.createTimes cfg fsm true wd lbl ag (m + 1) st).1.spawned
          = st.spawned + m ∧
        (SessionManager.createTimes cfg fsm true wd lbl ag (m + 1) st).1.sessions.length
          = cfg.maxSessions := by
  intro m
  induction m with
  | zero =>
    intro st hfull
    have hquota : SessionManager.create cfg fsm true st wd lbl ag
        = (.error .maxSessionsReached, st) := by
      rw [SessionManager.create]
      rw [if_neg hwd, if_neg (by simp [hex]), if_neg (by simp [hdir]),
        if_pos (by omega)]
    refine ⟨[], ?_, rfl, by simp, ?_, ?_⟩
    · simp [SessionManager.createTimes, hquota]
    · simp [SessionManager.createTimes, hquota]
    · simp [SessionManager.createTimes, hquota]
      omega
  | succ m ih =>
    intro st hfull
    have hs := create_success cfg fsm st wd lbl ag hwd hex hdir (by omega) hag
    obtain ⟨oks, h1, h2, h3, h4, h5⟩ := ih
      { sessions := st.sessions ++ [newSession st wd lbl ag]
        nextId := st.nextId + 1
        spawned := st.spawned + 1 }
      (by simp; omega)
    refine ⟨.ok (newSession st wd lbl ag) :: oks, ?_, by simp [h2], ?_, ?_, ?_⟩
    · show (SessionManager.createTimes cfg fsm true wd lbl ag (m + 1 + 1) st).2 = _
      rw [SessionManager.createTimes, hs]
      simp only [h1]
      rfl
    · intro r hr
      rcases List.mem_cons.mp hr with h | h
      · exact ⟨newSession st wd lbl ag, h⟩
      · exact h3 r h
    · show (SessionManager.createTimes cfg fsm true wd lbl ag (m + 1 + 1) st).1.spawned = _
      rw [SessionManager.createTimes, hs]
      simp only at h4 ⊢
      rw [h4]
      omega
    · show (SessionManager.createTimes cfg fsm true wd lbl ag (m + 1 + 1) st).1.sessions.length = _
      rw [SessionManager.createTimes, hs]
      exact h5

/-- Claim **C7**: `create` with a nonexistent workDir fails with the
workDir-not-found error, leaving the registry and the spawn count
unchanged; with the registry already at quota (and an existing directory)
it fails with the quota error, again with no state change and no spawn;
and starting from the empty registry, `quota + 1` valid `create` calls
succeed exactly `quota` times, the final call alone failing with the quota
error after exactly `quota` spawns. -/
theorem claim_C7_create_validation (cfg : SMConfig) (fsm : FSModel)
    (st : SMState) (wd lbl ag : String)
    (hwd : wd ≠ "") (hex : fsm.existsSync wd = true)
    (hdir : fsm.isDirectory wd = true)
    (hag : cfg.agentCommands.contains ag = true) :
    (∀ wd2 : String, wd2 ≠ "" → fsm.existsSync wd2 = false →
      ∀ spawnOk, SessionManager.create cfg fsm spawnOk st wd2 lbl ag
        = (.error (.workDirNotFound wd2), st)) ∧
    (cfg.maxSessions ≤ st.sessions.length →
      ∀ spawnOk, SessionManager.create cfg fsm spawnOk st wd lbl ag
        = (.error .maxSessionsReached, st)) ∧
    (∃ oks,
      (SessionManager.createTimes cfg fsm true wd lbl ag
          (cfg.maxSessions + 1) SMState.empty).2
        = oks ++ [.error .maxSessionsReached] ∧
      oks.length = cfg.maxSessions ∧ (∀ r ∈ oks, ∃ s, r = .ok s) ∧
      (SessionManager.createTimes cfg fsm true wd lbl ag
          (cfg.maxSessions + 1) SMState.empty).1.spawned = cfg.maxSessions) := by
  refine ⟨?_, ?_, ?_⟩
  · intro wd2 hwd2 hex2 spawnOk
    rw [SessionManager.create, if_neg hwd2, if_pos hex2]
  · intro hq spawnOk
    rw [SessionManager.create, if_neg hwd, if_neg (by simp [hex]),
      if_neg (by simp [hdir]), if_pos (by omega)]
  · obtain ⟨oks, h1, h2, h3, h4, h5⟩ := createTimes_fill cfg fsm wd lbl ag
      hwd hex hdir hag cfg.maxSessions SMState.empty (by simp [SMState.empty])
    exact ⟨oks, h1, h2, h3, by simpa [SMState.empty] using h4⟩

/-- Concrete witness for C7: quota 2, a one-directory filesystem. -/
theorem claim_C7_create_validation_witness :
    (("/w" : String) ≠ "" ∧
      (FSModel.mk (fun p => p == "/w") (fun p => p == "/w")).existsSync "/w" = true ∧
      (FSModel.mk (fun p => p == "/w") (fun p => p == "/w")).isDirectory "/w" = true ∧
      (SMConfig.mk 2 ["claude", "codex"]).agentCommands.contains "claude" = true) ∧
    (∃ oks,
      (SessionManager.createTimes (SMConfig.mk 2 ["claude", "codex"])
          (FSModel.mk (fun p => p == "/w") (fun p => p == "/w")) true "/w" "" "claude"
          ((SMConfig.mk 2 ["claude", "codex"]).maxSessions + 1) SMState.empty).2
        = oks ++ [.error .maxSessionsReached] ∧
      oks.length = (SMConfig.mk 2 ["claude", "codex"]).maxSessions ∧
      (∀ r ∈ oks, ∃ s, r = .ok s) ∧
      (SessionManager.createTimes (SMConfig.mk 2 ["claude", "codex"])
          (FSModel.mk (fun p => p == "/w") (fun p => p == "/w")) true "/w" "" "claude"
          ((SMConfig.mk 2 ["claude", "codex"]).maxSessions + 1) SMState.empty).1.spawned
        = (SMConfig.mk 2 ["claude", "codex"]).maxSessions) :=
  ⟨⟨by decide, by decide, by decide, by decide⟩,
    (claim_C7_create_validation (SMConfig.mk 2 ["claude", "codex"])
      (FSModel.mk (fun p => p == "/w") (fun p => p == "/w")) SMState.empty
      "/w" "" "claude" (by decide) (by decide) (by decide) (by decide)).2.2⟩

/-- Claim **C8**: `kill` on an unknown id, or on an id whose session is already
terminated, returns the state unchanged and produces no effect at all:
no signal, no forced-kill timer, and no termination event. -/
theorem claim_C8_kill_noop (st : SMState) (id : Nat)
    (h : findSession st id = none ∨
      ∃ s, findSession st id = some s ∧ s.state = .terminated) :
    SessionManager.kill st id = (st, []) := by
  rcases h with h | ⟨s, hs, hterm⟩
  · simp only [SessionManager.kill, h]
  · simp only [SessionManager.kill, hs]
    rw [if_pos hterm]

/-- Concrete witness for C8: a registry holding one terminated session;
killing it again, and killing an absent id, are both no-ops. -/
theorem claim_C8_kill_noop_witness :
    (findSession
        (SMState.mk [Sess.mk 0 .terminated "/w" "w" "claude" (some 0) 120 40 false] 1 1) 0
      = some (Sess.mk 0 .terminated "/w" "w" "claude" (some 0) 120 40 false) ∧
      (Sess.mk 0 .terminated "/w" "w" "claude" (some 0) 120 40 false).state
        = .terminated) ∧
    SessionManager.kill
        (SMState.mk [Sess.mk 0 .terminated "/w" "w" "claude" (some 0) 120 40 false] 1 1) 0
      = (SMState.mk [Sess.mk 0 .terminated "/w" "w" "claude" (some 0) 120 40 false] 1 1,
        []) :=
  ⟨⟨by decide, by decide⟩,
    claim_C8_kill_noop
      (SMState.mk [Sess.mk 0 .terminated "/w" "w" "claude" (some 0) 120 40 false] 1 1) 0
      (Or.inr ⟨Sess.mk 0 .terminated "/w" "w" "claude" (some 0) 120 40 false,
        by decide, by decide⟩)⟩

theorem kill_active_eq (st : SMState) (id : Nat) (s : Sess)
    (hfind : findSession st id = some s) (hactive : s.state = .active) :
    SessionManager.kill st id
      = ({ st with
            sessions := st.sessions.map (fun t =>
              if t.id = id then { t with state := .terminated, forceKillTimer := true }
              else t) },
        [.gracefulKill id, .armForceKillTimer id]) := by
  have hterm : ¬ s.state = SessState.terminated := by rw [hactive]; simp
  simp only [SessionManager.kill, hfind]
  rw [if_neg hterm]

theorem find?_map_killUpdate (id : Nat) (s : Sess) :
    ∀ l : List Sess, l.find? (fun t => t.id == id) = some s →
      (l.map (fun t =>
          if t.id = id then { t with state := .terminated, forceKillTimer := true }
          else t)).find? (fun t => t.id == id)
        = some { s with state := .terminated, forceKillTimer := true } := by
  intro l
  induction l with
  | nil => intro h; simp at h
  | cons t rest ih =>
    intro hfind
    by_cases hid : t.id = id
    · rw [List.find?_cons_of_pos _ (by simp [hid])] at hfind
      simp only [List.map_cons, if_pos hid]
      rw [List.find?_cons_of_pos _ (by simp [hid])]
      simp only [Option.some.injEq] at hfind
      rw [hfind]
    · rw [List.find?_cons_of_neg _ (by simp [hid])] at hfind
      simp only [List.map_cons, if_neg hid]
      rw [List.find?_cons_of_neg _ (by simp [hid])]
      exact ih hfind

theorem findSession_kill_terminated (st : SMState) (id : Nat) (s : Sess)
    (hfind : findSession st id = some s) (hactive : s.state = .active) :
    findSession (SessionManager.kill st id).1 id
      = some { s with state := .terminated, forceKillTimer := true } := by
  rw [kill_active_eq st id s hfind hactive]
  exact find?_map_killUpdate id s st.sessions hfind

/-- Claim **C10**: immediately after `kill` on an active session, the session's
state is `terminated`; every subsequent `sendPrompt`, `writeRaw` and
`resize` on that id fails with `SESSION_TERMINATED`, and `list()` no
longer contains the id. -/
theorem claim_C10_kill_terminates (st : SMState) (id : Nat) (s : Sess)
    (hfind : findSession st id = some s) (hactive : s.state = .active) :
    (∃ s2, findSession (SessionManager.kill st id).1 id = some s2 ∧
      s2.state = .terminated) ∧
    (∀ prompt, SessionManager.sendPrompt (SessionManager.kill st id).1 id prompt
      = .error .terminated) ∧
    (∀ data, SessionManager.writeRaw (SessionManager.kill st id).1 id data
      = .error .terminated) ∧
    (∀ cols rows, SessionManager.resize (SessionManager.kill st id).1 id cols rows
      = .error .terminated) ∧
    ∀ p ∈ SessionManager.list (SessionManager.kill st id).1, p.id ≠ id := by
  have hfind2 := findSession_kill_terminated st id s hfind hactive
  have hget : SessionManager.getSession (SessionManager.kill st id).1 id
      = .error .terminated := by
    simp [SessionManager.getSession, hfind2]
  refine ⟨⟨_, hfind2, rfl⟩, ?_, ?_, ?_, ?_⟩
  · intro prompt; rw [SessionManager.sendPrompt, hget]; rfl
  · intro data; rw [SessionManager.writeRaw, hget]; rfl
  · intro cols rows; rw [SessionManager.resize, hget]; rfl
  · intro p hp hpid
    rw [kill_active_eq st id s hfind hactive] at hp
    simp only [SessionManager.list, List.mem_map, List.mem_filter] at hp
    obtain ⟨t, ⟨⟨u, humem, hut⟩, htstate⟩, htp⟩ := hp
    by_cases hu : u.id = id
    · rw [if_pos hu] at hut
      rw [← hut] at htstate
      simp at htstate
    · rw [if_neg hu] at hut
      rw [← hut] at htp
      rw [← htp] at hpid
      simp [Sess.toPublic] at hpid
      exact hu hpid

/-- Concrete witness for C10: one active session with id 0. -/
theorem claim_C10_kill_terminates_witness :
    (findSession (SMState.mk [Sess.mk 0 .active "/w" "w" "claude" none 120 40 false] 1 1) 0
        = some (Sess.mk 0 .active "/w" "w" "claude" none 120 40 false) ∧
      (Sess.mk 0 .active "/w" "w" "claude" none 120 40 false).state = .active) ∧
    (∀ prompt, SessionManager.sendPrompt
        (SessionManager.kill
          (SMState.mk [Sess.mk 0 .active "/w" "w" "claude" none 120 40 false] 1 1) 0).1
        0 prompt = .error .terminated) :=
  ⟨⟨by decide, by decide⟩,
    (claim_C10_kill_terminates
      (SMState.mk [Sess.mk 0 .active "/w" "w" "claude" none 120 40 false] 1 1) 0
      (Sess.mk 0 .active "/w" "w" "claude" none 120 40 false)
      (by decide) (by decide)).2.1⟩

/-! ## Shared helper: JS `String.prototype.split(sep)` on char lists -/

/-- JS `str.split(sep)` for a single-character separator: always returns at
least one element, keeps empty pieces. -/
def splitChar (sep : Char) : List Char → List (List Char)
  | [] => [[]]
  | c :: rest =>
    let r := splitChar sep rest
    if c = sep then [] :: r
    else
      match r with
      | [] => [[c]]
      | s :: ss => (c :: s) :: ss

theorem splitChar_ne_nil (sep : Char) (l : List Char) : splitChar sep l ≠ [] := by
  cases l with
  | nil => simp [splitChar]
  | cons c rest =>
    rw [splitChar]
    split
    · simp
    · split <;> simp

/-! ## Section 8, `file.read` (server.js lines 969–1019)

```js
const absPath = path.resolve(readSession.workDir, filePath);
if (!absPath.startsWith(readSession.workDir)) {
  sendToClient(ws, 'error', { message: 'Path traversal not allowed', ... });
  return;
}
... fs.promises.stat(absPath) ... fs.promises.readFile(absPath, ...)
```
POSIX `path.resolve(workDir, filePath)` for an absolute `workDir`:
join unless `filePath` is absolute, then normalise `.`/`..`/empty
segments. -/

def jsStartsWith (s pre : String) : Bool := pre.toList.isPrefixOf s.toList

def pathSegsOf (p : String) : List String :=
  (splitChar '/' p.toList).map (fun cs => String.mk cs)

/-- Normalise path segments: drop empty and `.`, let `..` pop the last kept
segment (or nothing at the root). -/
def normalizeSegs (segs : List String) : List String :=
  segs.foldl
    (fun acc seg =>
      if seg = "" ∨ seg = "." then acc
      else if seg = ".." then acc.dropLast
      else acc ++ [seg])
    []

/-- POSIX `path.resolve(workDir, filePath)` with `workDir` absolute. -/
def resolvePath (workDir filePath : String) : String :=
  let joined := if jsStartsWith filePath "/" then filePath
    else workDir ++ "/" ++ filePath
  "/" ++ String.intercalate "/" (normalizeSegs (pathSegsOf joined))

/-- The `file.read` traversal guard: `absPath.startsWith(workDir)`
(string-prefix test, no separator check). -/
def fileReadPathAllowed (workDir filePath : String) : Bool :=
  jsStartsWith (resolvePath workDir filePath) workDir

/-- The spec-level meaning of "the resolved path stays inside the workDir
root": it is the workDir itself or lies strictly below it (prefix followed
by a path separator). -/
def insideWorkDir (workDir absPath : String) : Bool :=
  absPath == workDir || jsStartsWith absPath (workDir ++ "/")

/-- Claim **C1** (code bug): the guard rejects the claim's own example
`"../../etc/passwd"`, but its `startsWith` test has no separator check, so
for workDir `"/a/proj"` the path `"../proj2/pw"` resolves to
`"/a/proj2/pw"` — outside the workDir — and is still allowed: the handler
then goes on to `stat`/`readFile` a file outside the workDir. -/
theorem claim_C1_pathTraversal_bug :
    fileReadPathAllowed "/a/proj" "../../etc/passwd" = false ∧
    resolvePath "/a/proj" "../../etc/passwd" = "/etc/passwd" ∧
    resolvePath "/a/proj" "../proj2/pw" = "/a/proj2/pw" ∧
    insideWorkDir "/a/proj" "/a/proj2/pw" = false ∧
    fileReadPathAllowed "/a/proj" "../proj2/pw" = true := by decide

/-! ## Section 8, WebSocket error-code mapping (server.js lines 1136–1147)

```js
const code = err.message === 'SESSION_NOT_FOUND' ? 'SESSION_NOT_FOUND'
  : err.message === 'SESSION_TERMINATED' ? 'SESSION_TERMINATED'
  : err.message.includes('Maximum sessions') ? 'MAX_SESSIONS'
  : (err.message.includes('workDir') || err.message.includes('spawn')) ? 'SPAWN_FAILED'
  : 'INVALID_MESSAGE';
```
-/

def hasSubstr (needle : List Char) : List Char → Bool
  | [] => needle.isPrefixOf []
  | c :: t => needle.isPrefixOf (c :: t) || hasSubstr needle t

/-- JS `hay.includes(needle)`. -/
def jsIncludes (hay needle : String) : Bool := hasSubstr needle.toList hay.toList

def wsErrorCode (msg : String) : String :=
  if msg = "SESSION_NOT_FOUND" then "SESSION_NOT_FOUND"
  else if msg = "SESSION_TERMINATED" then "SESSION_TERMINATED"
  else if jsIncludes msg "Maximum sessions" then "MAX_SESSIONS"
  else if jsIncludes msg "workDir" || jsIncludes msg "spawn" then "SPAWN_FAILED"
  else "INVALID_MESSAGE"

/-- Error message texts thrown by `SessionManager.create` (lines 348–386). -/
def workDirNotFoundMsg (wd : String) : String := "workDir does not exist: " ++ wd

def workDirNotDirMsg (wd : String) : String := "workDir is not a directory: " ++ wd

def maxSessionsMsg : String := "Maximum sessions (16) reached"

def unknownAgentTypeMsg (a : String) : String := "Unknown agentType: " ++ a

def spawnFailedMsg (m : String) : String := "Failed to spawn terminal: " ++ m

/-- Claim **C9 counterexample**: the workDir validation failures (not-found,
not-a-directory) are mapped to `SPAWN_FAILED` — the very same wire code as
genuine spawn failures — so spawn failures are *not* distinct from all
generic validation failures. -/
theorem claim_C9_counterexample :
    wsErrorCode (workDirNotFoundMsg "/nonexistent") = "SPAWN_FAILED" ∧
    wsErrorCode (workDirNotDirMsg "/etc/hosts") = "SPAWN_FAILED" ∧
    wsErrorCode (spawnFailedMsg "boom") = "SPAWN_FAILED" := by decide

/-- Claim **C9** (amended): every spawn-failure message (which contains `spawn`)
maps to `SPAWN_FAILED`, and that code differs from the codes used for the
quota failure (`MAX_SESSIONS`) and the unknown-agentType failure
(`INVALID_MESSAGE`); however the workDir validation failures share the
`SPAWN_FAILED` code with spawn failures (see the counterexample). -/
theorem claim_C9_spawn_code (msg : String)
    (h1 : jsIncludes msg "spawn" = true)
    (h2 : jsIncludes msg "Maximum sessions" = false)
    (h3 : msg ≠ "SESSION_NOT_FOUND") (h4 : msg ≠ "SESSION_TERMINATED") :
    wsErrorCode msg = "SPAWN_FAILED" ∧
    wsErrorCode (unknownAgentTypeMsg "pilot") = "INVALID_MESSAGE" ∧
    wsErrorCode maxSessionsMsg = "MAX_SESSIONS" ∧
    ("SPAWN_FAILED" : String) ≠ "INVALID_MESSAGE" ∧
    ("SPAWN_FAILED" : String) ≠ "MAX_SESSIONS" := by
  refine ⟨?_, by decide, by decide, by decide, by decide⟩
  rw [wsErrorCode, if_neg h3, if_neg h4, if_neg (by simp [h2]),
    if_pos (by simp [h1])]

/-- Concrete witness for C9 (amended), at the spawn-failure message for a
spawn error `"boom"`. -/
theorem claim_C9_spawn_code_witness :
    (jsIncludes (spawnFailedMsg "boom") "spawn" = true ∧
      jsIncludes (spawnFailedMsg "boom") "Maximum sessions" = false ∧
      spawnFailedMsg "boom" ≠ "SESSION_NOT_FOUND" ∧
      spawnFailedMsg "boom" ≠ "SESSION_TERMINATED") ∧
    wsErrorCode (spawnFailedMsg "boom") = "SPAWN_FAILED" :=
  ⟨⟨by decide, by decide, by decide, by decide⟩,
    (claim_C9_spawn_code (spawnFailedMsg "boom")
      (by decide) (by decide) (by decide) (by decide)).1⟩

/-! ## Section 3: LineBuffer (server.js lines 219–334)

The three regex passes of `stripNonSGR` are embedded as left-to-right
scanners with JS `String.replace(global)` semantics: at each position try
to match; on success continue after the match, otherwise advance one
character.  `stripOSC`/`stripCSI` restart scanning at positions reached by
non-structural jumps, so they carry a fuel argument (`length` of the input
suffices) to stay structurally recursive and kernel-reducible. -/

/-- Lazy search for an OSC terminator (`BEL` or `ESC \`), as the lazy
`[\s\S]*?(?:\x07|\x1b\\)` does: at each position first try the
terminators, else consume one character.  `none` when no terminator
exists in the rest of the input. -/
def oscEnd : List Char → Option (List Char)
  | [] => none
  | c :: rest =>
    if c = '\x07' then some rest
    else if c = '\x1b' ∧ rest.head? = some '\\' then some rest.tail
    else oscEnd rest

/-- Pass 1: `str.replace(/\x1b\][\s\S]*?(?:\x07|\x1b\\)/g, '')`.
If an `ESC ]` has no terminator anywhere after it, no OSC match can start
at or after it (a terminator in a suffix would be one in the whole rest),
so the remainder is kept verbatim. -/
def stripOSCGo : Nat → List Char → List Char
  | 0, l => l
  | _ + 1, [] => []
  | fuel + 1, c :: rest =>
    if c = '\x1b' ∧ rest.head? = some ']' then
      (match oscEnd rest.tail with
        | some rest2 => stripOSCGo fuel rest2
        | none => c :: rest)
    else c :: stripOSCGo fuel rest

def stripOSC (l : List Char) : List Char := stripOSCGo l.length l

/-- The `[\x30-\x3f]` (CSI parameter bytes). -/
def isCsiParam (c : Char) : Bool := decide (0x30 ≤ c.toNat ∧ c.toNat ≤ 0x3f)

/-- The `[\x20-\x2f]` (CSI intermediate bytes). -/
def isCsiIntermediate (c : Char) : Bool := decide (0x20 ≤ c.toNat ∧ c.toNat ≤ 0x2f)

/-- The `[A-LN-Za-ln-z]`: ASCII letters except `M`/`m` (so SGR `...m` never
matches). -/
def isCsiFinalNonSGR (c : Char) : Bool :=
  decide ((('A' : Char) ≤ c ∧ c ≤ 'L') ∨ (('N' : Char) ≤ c ∧ c ≤ 'Z') ∨
    (('a' : Char) ≤ c ∧ c ≤ 'l') ∨ (('n' : Char) ≤ c ∧ c ≤ 'z'))

/-- Greedy `[\x30-\x3f]*[\x20-\x2f]*` then one final byte; the three
classes are disjoint, so greedy matching is deterministic. -/
def csiMatch (l : List Char) : Option (List Char) :=
  match (l.dropWhile isCsiParam).dropWhile isCsiIntermediate with
  | [] => none
  | c :: rest => if isCsiFinalNonSGR c then some rest else none

/-- Pass 2: `str.replace(/\x1b\[[\x30-\x3f]*[\x20-\x2f]*[A-LN-Za-ln-z]/g, '')`.
On a failed match the scan resumes after the `ESC [` (later escapes inside
`rest` may still match). -/
def stripCSIGo : Nat → List Char → List Char
  | 0, l => l
  | _ + 1, [] => []
  | fuel + 1, c :: rest =>
    if c = '\x1b' ∧ rest.head? = some '[' then
      (match csiMatch rest.tail with
        | some rest2 => stripCSIGo fuel rest2
        | none => c :: rest.head?.toList ++ stripCSIGo fuel rest.tail)
    else c :: stripCSIGo fuel rest

def stripCSI (l : List Char) : List Char := stripCSIGo l.length l

/-- Pass 3: `str.replace(/\x1b[^[\]]/g, '')` — drop `ESC x` pairs where
`x` is neither `[` nor `]` (a trailing lone `ESC` stays). -/
def stripSingleEsc : List Char → List Char
  | [] => []
  | [c] => [c]
  | c :: c2 :: rest =>
    if c = '\x1b' then
      (if c2 = '[' ∨ c2 = ']' then c :: c2 :: stripSingleEsc rest
        else stripSingleEsc rest)
    else c :: stripSingleEsc (c2 :: rest)

/-- The `LineBuffer.stripNonSGR` (lines 235–243): the three passes in source
order. -/
def stripNonSGR (l : List Char) : List Char :=
  stripSingleEsc (stripCSI (stripOSC l))

/-- The `rawLine.replace(/\r$/, '')`: drop one trailing CR. -/
def stripTrailingCR (l : List Char) : List Char :=
  if l.getLast? = some '\r' then l.dropLast else l

/-- The `segments[i].slice(crIdx + 1)` with `crIdx = lastIndexOf('\r')`:
the suffix after the last CR (the whole segment when there is none). -/
def afterLastCR (seg : List Char) : List Char :=
  (seg.reverse.takeWhile (fun c => c != '\r')).reverse

/-- The `LineBuffer.handleCR` (lines 249–258): split on `\n`, keep the text
after the last CR of each piece, re-join. -/
def handleCR (l : List Char) : List Char :=
  List.intercalate ['\n'] ((splitChar '\n' l).map afterLastCR)

/-- The per-line cleanup applied by `feed`/`flush`/the flush timer:
`handleCR(stripNonSGR(rawLine.replace(/\r$/, '')))`. -/
def cleanLine (raw : List Char) : List Char :=
  handleCR (stripNonSGR (stripTrailingCR raw))

/-- Per-stream LineBuffer state: the raw unprocessed tail
(`this.rawPartials.get(stream)`) and whether a flush timer is armed
(`this.timers.has(stream)`).  Timer firing is modelled as the explicit
`flushTimerFire` transition. -/
structure LBState where
  pending : List Char
  timerArmed : Bool
deriving DecidableEq, Repr

def LBState.init : LBState := { pending := [], timerArmed := false }

/-- The completed raw lines of a chunk: `combined.split('\n')` with the
trailing element popped off. -/
def linesOf (sep : Char) (l : List Char) : List (List Char) :=
  (splitChar sep l).dropLast

/-- The popped trailing element of `combined.split('\n')` (the new raw
partial; empty when the chunk ended in a newline). -/
def tailOf (sep : Char) (l : List Char) : List Char :=
  (splitChar sep l).getLastD []

/-- The `LineBuffer.feed` (lines 260–308) for one stream: combine with the
stored partial, split on `\n`, pop the trailing partial, clean and emit
each completed line if non-empty, store the new partial and re-arm the
timer iff it is non-empty. -/
def LineBuffer.feed (st : LBState) (chunk : List Char) :
    LBState × List (List Char) :=
  let combined := st.pending ++ chunk
  let rawPartial := tailOf '\n' combined
  let completed := linesOf '\n' combined
  let emitted := (completed.map cleanLine).filter (fun l => !l.isEmpty)
  ({ pending := rawPartial, timerArmed := !rawPartial.isEmpty }, emitted)

/-- The `LineBuffer.flush` (lines 310–325): cancel the timer, clean and emit
the pending partial if non-empty. -/
def LineBuffer.flush (st : LBState) : LBState × List (List Char) :=
  if st.pending.isEmpty then ({ st with timerArmed := false }, [])
  else
    let cleaned := cleanLine st.pending
    ({ pending := [], timerArmed := false },
      if cleaned.isEmpty then [] else [cleaned])

/-- The flush-timer callback (lines 292–303): identical cleanup on the
pending partial. -/
def LineBuffer.flushTimerFire (st : LBState) : LBState × List (List Char) :=
  if st.pending.isEmpty then ({ st with timerArmed := false }, [])
  else
    let cleaned := cleanLine st.pending
    ({ pending := [], timerArmed := false },
      if cleaned.isEmpty then [] else [cleaned])

/-- Feed a list of chunks in order, concatenating the emitted lines. -/
def LineBuffer.feedAll : LBState → List (List Char) → LBState × List (List Char)
  | st, [] => (st, [])
  | st, c :: cs =>
    let r := LineBuffer.feed st c
    let rest := LineBuffer.feedAll r.1 cs
    (rest.1, r.2 ++ rest.2)

/-- Modelled from the spec sentence for C4, amended to the source's stage
order: for a completed segment, strip one trailing CR, apply the ANSI
filter, then keep only the text after the last embedded CR. -/
def specSegmentClean (seg : List Char) : List Char :=
  ((stripNonSGR (stripTrailingCR seg)).reverse.takeWhile (fun c => c != '\r')).reverse

/-- The frozen claim's stage order: strip one trailing CR, keep only the
text after the last embedded CR, then apply the ANSI filter. -/
def claimOrderClean (seg : List Char) : List Char :=
  stripNonSGR (((stripTrailingCR seg).reverse.takeWhile (fun c => c != '\r')).reverse)

/-- Claim **C5**: `feed("stdout", "Loading\r50%\r100%\n")` emits exactly the one
clean line `"100%"`; SGR colour sequences are preserved; the `ESC[2J`
erase sequence is stripped. -/
theorem claim_C5_concrete_feeds :
    (LineBuffer.feed LBState.init "Loading\r50%\r100%\n".toList).2
      = ["100%".toList] ∧
    (LineBuffer.feed LBState.init "\x1b[31merror\x1b[0m\n".toList).2
      = ["\x1b[31merror\x1b[0m".toList] ∧
    (LineBuffer.feed LBState.init "\x1b[2Jcleared\n".toList).2
      = ["cleared".toList] := by decide

/-- Claim **C4 counterexample**: the code runs the ANSI filter *before* the
CR-collapse (`handleCR(stripNonSGR(trimmed))`), not after it as the claim
states.  On the segment `"\x1b]t\ra\x07b"` the code strips the whole OSC
sequence (whose body contains the CR) and emits `"b"`, while the claim's
stage order collapses at the CR inside the OSC body first and yields
`"a\x07b"`. -/
theorem claim_C4_counterexample :
    (LineBuffer.feed LBState.init "\x1b]t\ra\x07b\n".toList).2 = [['b']] ∧
    ((linesOf '\n' (LBState.init.pending ++ "\x1b]t\ra\x07b\n".toList)).map
        claimOrderClean).filter (fun l => !l.isEmpty)
      = ["a\x07b".toList] ∧
    (LineBuffer.feed LBState.init "\x1b]t\ra\x07b\n".toList).2
      ≠ ((linesOf '\n' (LBState.init.pending ++ "\x1b]t\ra\x07b\n".toList)).map
          claimOrderClean).filter (fun l => !l.isEmpty) := by decide

/-! ### The ANSI filter only removes characters

Each pass of `stripNonSGR` outputs a selection of input characters, so a
character absent from the input (in particular `\n`) is absent from the
output.  This lets the per-segment `handleCR` collapse to "text after the
last CR of the segment". -/

theorem dropWhile_sub (p : α → Bool) : ∀ l : List α, l.dropWhile p ⊆ l := by
  intro l
  induction l with
  | nil => simp [List.dropWhile]
  | cons c rest ih =>
    rw [List.dropWhile_cons]
    split
    · exact fun x hx => List.mem_cons_of_mem c (ih hx)
    · exact fun x hx => hx

theorem oscEnd_mem (l r : List Char) (h : oscEnd l = some r) : r ⊆ l := by
  induction l generalizing r with
  | nil => simp [oscEnd] at h
  | cons c rest ih =>
    rw [oscEnd] at h
    split at h
    · cases h
      exact fun x hx => List.mem_cons_of_mem c hx
    · split at h
      · cases h
        exact fun x hx => List.mem_cons_of_mem c (List.tail_subset rest hx)
      · exact fun x hx => List.mem_cons_of_mem c (ih r h hx)

theorem stripOSCGo_mem : ∀ (fuel : Nat) (l : List Char), stripOSCGo fuel l ⊆ l := by
  intro fuel
  induction fuel with
  | zero => intro l x hx; simpa [stripOSCGo] using hx
  | succ fuel ih =>
    intro l x hx
    cases l with
    | nil => simpa [stripOSCGo] using hx
    | cons c rest =>
      rw [stripOSCGo] at hx
      split at hx
      · cases hosc : oscEnd rest.tail with
        | some rest2 =>
          rw [hosc] at hx
          exact List.mem_cons_of_mem c
            (List.tail_subset rest (oscEnd_mem rest.tail rest2 hosc (ih rest2 hx)))
        | none =>
          rw [hosc] at hx
          exact hx
      · rcases List.mem_cons.mp hx with h | h
        · exact h ▸ List.mem_cons_self c rest
        · exact List.mem_cons_of_mem c (ih rest h)

theorem csiMatch_mem (l r : List Char) (h : csiMatch l = some r) : r ⊆ l := by
  rw [csiMatch] at h
  split at h
  · cases h
  · rename_i c rest hd
    split at h
    · cases h
      intro x hx
      have h1 : x ∈ (l.dropWhile isCsiParam).dropWhile isCsiIntermediate := by
        rw [hd]; exact List.mem_cons_of_mem c hx
      exact dropWhile_sub isCsiParam l (dropWhile_sub isCsiIntermediate _ h1)
    · cases h

theorem headOptList_sub (l : List Char) : l.head?.toList ⊆ l := by
  cases l <;> simp

theorem stripCSIGo_mem : ∀ (fuel : Nat) (l : List Char), stripCSIGo fuel l ⊆ l := by
  intro fuel
  induction fuel with
  | zero => intro l x hx; simpa [stripCSIGo] using hx
  | succ fuel ih =>
    intro l x hx
    cases l with
    | nil => simpa [stripCSIGo] using hx
    | cons c rest =>
      rw [stripCSIGo] at hx
      split at hx
      · cases hcsi : csiMatch rest.tail with
        | some rest2 =>
          rw [hcsi] at hx
          exact List.mem_cons_of_mem c
            (List.tail_subset rest (csiMatch_mem rest.tail rest2 hcsi (ih rest2 hx)))
        | none =>
          rw [hcsi] at hx
          rcases List.mem_cons.mp hx with h | h
          · exact h ▸ List.mem_cons_self c rest
          · rcases List.mem_append.mp h with h2 | h2
            · exact List.mem_cons_of_mem c (headOptList_sub rest h2)
            · exact List.mem_cons_of_mem c (List.tail_subset rest (ih rest.tail h2))
      · rcases List.mem_cons.mp hx with h | h
        · exact h ▸ List.mem_cons_self c rest
        · exact List.mem_cons_of_mem c (ih rest h)

theorem stripSingleEsc_memGo :
    ∀ (n : Nat) (l : List Char), l.length ≤ n → stripSingleEsc l ⊆ l := by
  intro n
  induction n with
  | zero =>
    intro l hl
    have : l = [] := List.eq_nil_of_length_eq_zero (by omega)
    subst this
    simp [stripSingleEsc]
  | succ n ih =>
    intro l hl
    cases l with
    | nil => simp [stripSingleEsc]
    | cons c rest =>
      cases rest with
      | nil =>
        intro x hx
        simp [stripSingleEsc] at hx
        simp [hx]
      | cons c2 rest2 =>
        rw [stripSingleEsc]
        by_cases hc : c = '\x1b'
        · rw [if_pos hc]
          by_cases h2 : c2 = '[' ∨ c2 = ']'
          · rw [if_pos h2]
            intro x hx
            rcases List.mem_cons.mp hx with h | h
            · exact h ▸ List.mem_cons_self c (c2 :: rest2)
            · rcases List.mem_cons.mp h with h3 | h3
              · simp [h3]
              · exact List.mem_cons_of_mem c (List.mem_cons_of_mem c2
                  (ih rest2 (by simp at hl; omega) h3))
          · rw [if_neg h2]
            intro x hx
            exact List.mem_cons_of_mem c (List.mem_cons_of_mem c2
              (ih rest2 (by simp at hl; omega) hx))
        · rw [if_neg hc]
          intro x hx
          rcases List.mem_cons.mp hx with h | h
          · exact h ▸ List.mem_cons_self c (c2 :: rest2)
          · exact List.mem_cons_of_mem c
              (ih (c2 :: rest2) (by simp at hl ⊢; omega) h)

theorem stripSingleEsc_mem (l : List Char) : stripSingleEsc l ⊆ l :=
  stripSingleEsc_memGo l.length l (Nat.le_refl _)

theorem stripNonSGR_mem (l : List Char) : stripNonSGR l ⊆ l := by
  intro x hx
  exact stripOSCGo_mem l.length l
    (stripCSIGo_mem (stripOSC l).length (stripOSC l)
      (stripSingleEsc_mem _ hx))

theorem stripTrailingCR_mem (l : List Char) : stripTrailingCR l ⊆ l := by
  rw [stripTrailingCR]
  split
  · exact List.dropLast_subset l
  · exact fun x hx => hx

/-! ### `splitChar` pieces and the per-segment collapse -/

theorem splitChar_not_mem (sep : Char) :
    ∀ l : List Char, sep ∉ l → splitChar sep l = [l] := by
  intro l
  induction l with
  | nil => intro h; rfl
  | cons c rest ih =>
    intro h
    have hc : ¬ c = sep := fun e => h (by simp [e])
    have hr := ih (fun hm => h (List.mem_cons_of_mem c hm))
    simp only [splitChar]
    rw [if_neg hc, hr]

theorem splitChar_pieces (sep : Char) :
    ∀ l s, s ∈ splitChar sep l → sep ∉ s := by
  intro l
  induction l with
  | nil =>
    intro s hs
    simp [splitChar] at hs
    simp [hs]
  | cons c rest ih =>
    intro s hs
    simp only [splitChar] at hs
    by_cases hc : c = sep
    · rw [if_pos hc] at hs
      rcases List.mem_cons.mp hs with h | h
      · simp [h]
      · exact ih s h
    · rw [if_neg hc] at hs
      obtain ⟨s0, ss, hsp⟩ := List.exists_cons_of_ne_nil (splitChar_ne_nil sep rest)
      rw [hsp] at hs
      have hs0mem : s0 ∈ splitChar sep rest := by
        rw [hsp]; exact List.mem_cons_self s0 ss
      rcases List.mem_cons.mp hs with h | h
      · subst h
        intro hmem
        rcases List.mem_cons.mp hmem with h2 | h2
        · exact hc h2.symm
        · exact ih s0 hs0mem h2
      · refine ih s ?_
        rw [hsp]
        exact List.mem_cons_of_mem s0 h

theorem handleCR_no_nl (l : List Char) (h : ('\n' : Char) ∉ l) :
    handleCR l = afterLastCR l := by
  rw [handleCR, splitChar_not_mem '\n' l h]
  simp [List.intercalate]

/-- On a segment with no embedded newline — every completed segment the
LineBuffer processes — the source pipeline
`handleCR(stripNonSGR(stripTrailingCR ..))` equals the per-segment spec
pipeline (ANSI filter, then text after the last CR of the segment). -/
theorem cleanLine_eq_specSegmentClean (seg : List Char)
    (h : ('\n' : Char) ∉ seg) : cleanLine seg = specSegmentClean seg := by
  have h1 : ('\n' : Char) ∉ stripTrailingCR seg :=
    fun hm => h (stripTrailingCR_mem seg hm)
  have h2 : ('\n' : Char) ∉ stripNonSGR (stripTrailingCR seg) :=
    fun hm => h1 (stripNonSGR_mem _ hm)
  rw [cleanLine, handleCR_no_nl _ h2]
  rfl

/-- Claim **C4** (amended): for every completed segment processed by `feed`, and
for the pending partial processed by `flush` and the flush-timer callback,
the emitted text is: strip one trailing `\r`, then apply the ANSI filter
(SGR preserved, OSC / other CSI / stray escapes stripped), then keep only
the text after the last embedded `\r` — and it is emitted only if
non-empty.  (The frozen claim put the ANSI filter after the CR-collapse;
the code applies it before, see the counterexample.) -/
theorem claim_C4_pipeline (st : LBState) (chunk : List Char) :
    (LineBuffer.feed st chunk).2
      = ((linesOf '\n' (st.pending ++ chunk)).map specSegmentClean).filter
          (fun l => !l.isEmpty) ∧
    (('\n' : Char) ∉ st.pending →
      (LineBuffer.flush st).2
        = (if st.pending.isEmpty then []
            else if (specSegmentClean st.pending).isEmpty then []
            else [specSegmentClean st.pending]) ∧
      (LineBuffer.flushTimerFire st).2
        = (if st.pending.isEmpty then []
            else if (specSegmentClean st.pending).isEmpty then []
            else [specSegmentClean st.pending])) := by
  constructor
  · show ((linesOf '\n' (st.pending ++ chunk)).map cleanLine).filter _ = _
    congr 1
    apply List.map_congr_left
    intro seg hseg
    exact cleanLine_eq_specSegmentClean seg
      (splitChar_pieces '\n' (st.pending ++ chunk) seg
        (List.dropLast_subset _ hseg))
  · intro h
    constructor
    · by_cases hp : st.pending.isEmpty
      · simp [LineBuffer.flush, hp]
      · simp only [LineBuffer.flush, if_neg hp, if_neg (by simpa using hp)]
        rw [cleanLine_eq_specSegmentClean st.pending h]
    · by_cases hp : st.pending.isEmpty
      · simp [LineBuffer.flushTimerFire, hp]
      · simp only [LineBuffer.flushTimerFire, if_neg hp, if_neg (by simpa using hp)]
        rw [cleanLine_eq_specSegmentClean st.pending h]

/-- Concrete witness for C4 (amended): pending `"a\rb"`, chunk `"c\nd"`. -/
theorem claim_C4_pipeline_witness :
    (('\n' : Char) ∉ ("a\rb".toList : List Char)) ∧
    ((LineBuffer.feed (LBState.mk "a\rb".toList true) "c\nd".toList).2
      = ((linesOf '\n' ((LBState.mk "a\rb".toList true).pending ++ "c\nd".toList)).map
          specSegmentClean).filter (fun l => !l.isEmpty)) ∧
    ((LineBuffer.flush (LBState.mk "a\rb".toList true)).2
      = (if ((LBState.mk "a\rb".toList true).pending).isEmpty then []
          else if (specSegmentClean ((LBState.mk "a\rb".toList true).pending)).isEmpty then []
          else [specSegmentClean ((LBState.mk "a\rb".toList true).pending)])) :=
  ⟨by decide,
    (claim_C4_pipeline (LBState.mk "a\rb".toList true) "c\nd".toList).1,
    ((claim_C4_pipeline (LBState.mk "a\rb".toList true) "c\nd".toList).2
      (by decide)).1⟩

/-! ### Chunk-boundary invariance (C6)

`feed` is insensitive to how its input is chopped (with no flush timer
firing in between): feeding a list of chunks one by one produces the same
state and the same emitted-line sequence as feeding their concatenation. -/

theorem splitChar_cons_sep (sep : Char) (l : List Char) :
    splitChar sep (sep :: l) = [] :: splitChar sep l := by
  simp [splitChar]

theorem splitChar_cons_ne (sep c : Char) (l : List Char) (hc : ¬ c = sep) :
    splitChar sep (c :: l)
      = (splitChar sep l).modifyHead (fun s => c :: s) := by
  obtain ⟨s0, ss, hsp⟩ := List.exists_cons_of_ne_nil (splitChar_ne_nil sep l)
  simp only [splitChar]
  rw [if_neg hc, hsp]
  rfl

theorem linesOf_cons_sep (sep : Char) (l : List Char) :
    linesOf sep (sep :: l) = [] :: linesOf sep l := by
  obtain ⟨s0, ss, hsp⟩ := List.exists_cons_of_ne_nil (splitChar_ne_nil sep l)
  rw [linesOf, splitChar_cons_sep, hsp, linesOf, hsp]
  rfl

theorem tailOf_cons_sep (sep : Char) (l : List Char) :
    tailOf sep (sep :: l) = tailOf sep l := by
  obtain ⟨s0, ss, hsp⟩ := List.exists_cons_of_ne_nil (splitChar_ne_nil sep l)
  rw [tailOf, splitChar_cons_sep, hsp, tailOf, hsp]
  rfl

theorem linesOf_cons_ne (sep c : Char) (l : List Char) (hc : ¬ c = sep) :
    linesOf sep (c :: l) = (linesOf sep l).modifyHead (fun s => c :: s) := by
  obtain ⟨s0, ss, hsp⟩ := List.exists_cons_of_ne_nil (splitChar_ne_nil sep l)
  rw [linesOf, splitChar_cons_ne sep c l hc, hsp, linesOf, hsp]
  cases ss with
  | nil => rfl
  | cons s1 ss1 => rfl

theorem tailOf_cons_ne (sep c : Char) (l : List Char) (hc : ¬ c = sep) :
    tailOf sep (c :: l)
      = (if linesOf sep l = [] then c :: tailOf sep l else tailOf sep l) := by
  obtain ⟨s0, ss, hsp⟩ := List.exists_cons_of_ne_nil (splitChar_ne_nil sep l)
  rw [tailOf, splitChar_cons_ne sep c l hc, hsp, tailOf, hsp, linesOf, hsp]
  cases ss with
  | nil => simp [List.modifyHead]
  | cons s1 ss1 => rw [if_neg (by simp)]; rfl

/-- Splitting distributes over concatenation: the completed lines of
`u ++ v` are those of `u` followed by those of the trailing partial of `u`
prepended to `v`, and the trailing partials agree. -/
theorem linesTail_append (sep : Char) :
    ∀ u v : List Char,
      linesOf sep (u ++ v)
        = linesOf sep u ++ linesOf sep (tailOf sep u ++ v) ∧
      tailOf sep (u ++ v) = tailOf sep (tailOf sep u ++ v) := by
  intro u
  induction u with
  | nil => intro v; exact ⟨rfl, rfl⟩
  | cons c u ih =>
    intro v
    obtain ⟨ih1, ih2⟩ := ih v
    by_cases hc : c = sep
    · subst hc
      constructor
      · rw [List.cons_append, linesOf_cons_sep, linesOf_cons_sep, tailOf_cons_sep,
          ih1, List.cons_append]
      · rw [List.cons_append, tailOf_cons_sep, tailOf_cons_sep, ih2]
    · by_cases hnil : linesOf sep u = []
      · constructor
        · rw [List.cons_append, linesOf_cons_ne sep c _ hc, ih1, hnil,
            linesOf_cons_ne sep c u hc, hnil, tailOf_cons_ne sep c u hc,
            if_pos hnil]
          rw [List.cons_append, linesOf_cons_ne sep c _ hc]
          rfl
        · rw [List.cons_append, tailOf_cons_ne sep c _ hc, ih1, hnil, ih2,
            tailOf_cons_ne sep c u hc, if_pos hnil, List.cons_append,
            tailOf_cons_ne sep c _ hc]
          rfl
      · obtain ⟨s, rest, hs⟩ := List.exists_cons_of_ne_nil hnil
        constructor
        · rw [List.cons_append, linesOf_cons_ne sep c _ hc, ih1,
            linesOf_cons_ne sep c u hc, tailOf_cons_ne sep c u hc,
            if_neg hnil, hs]
          rfl
        · rw [List.cons_append, tailOf_cons_ne sep c _ hc, ih1, ih2,
            tailOf_cons_ne sep c u hc, if_neg hnil, hs,
            if_neg (by simp)]

/-- Feeding `a ++ b` in one call equals feeding `a` then `b`: same final
state, and the emitted lines concatenate. -/
theorem feed_append (st : LBState) (a b : List Char) :
    LineBuffer.feed st (a ++ b)
      = ((LineBuffer.feed (LineBuffer.feed st a).1 b).1,
        (LineBuffer.feed st a).2 ++ (LineBuffer.feed (LineBuffer.feed st a).1 b).2) := by
  obtain ⟨h1, h2⟩ := linesTail_append '\n' (st.pending ++ a) b
  simp only [LineBuffer.feed]
  rw [← List.append_assoc, h1, h2]
  simp [List.filter_append]

theorem feedAll_join :
    ∀ (cs : List (List Char)) (st : LBState), cs ≠ [] →
      LineBuffer.feedAll st cs = LineBuffer.feed st cs.join := by
  intro cs
  induction cs with
  | nil => intro st h; exact absurd rfl h
  | cons c cs ih =>
    intro st h
    cases cs with
    | nil => simp [LineBuffer.feedAll, List.join]
    | cons c2 cs2 =>
      rw [show (c :: c2 :: cs2).join = c ++ (c2 :: cs2).join from rfl,
        feed_append st c (c2 :: cs2).join,
        ← ih (LineBuffer.feed st c).1 (by simp)]
      rfl

/-- Claim **C6**: for every way of splitting an input into consecutive chunks,
feeding the chunks one after another (with no flush timer firing in
between) produces exactly the same emitted-line sequence — and even the
same final buffer state, hence the same trailing unterminated partial — as
feeding the concatenation whole. -/
theorem claim_C6_chunk_invariance (cs : List (List Char)) :
    LineBuffer.feedAll LBState.init cs = LineBuffer.feed LBState.init cs.join := by
  cases cs with
  | nil => rfl
  | cons c cs => exact feedAll_join (c :: cs) LBState.init (by simp)

end ClaudePunk
